import Mathlib

/-!
Verification of the fmritopics pipelines.

Part 1: the abstract-retrieval script (`get_abstracts.py`): the per-year
record-fetch retry loop, its sleep placement, and the empty-year skip.

Part 2: the topic-analysis script (`analyze_dynamic_topics.py`):
per-year probability normalisation in `get_topics_over_time`, the
`level_scale` dispatch, and the hierarchical level-assignment algorithm
of `get_clustered_topics` (mapping construction, fixed-point resolution,
idempotence, termination, representative counts, document sampling).
-/

/-! ### Retrieval retry loop

Mirrors the `while not good_record` loop of `get_abstracts.py`:

    tries = 0
    while not good_record:
        try:
            handle = Entrez.efetch(...); time.sleep(delay)
            records = Entrez.read(handle); good_record = True
        except:
            tries += 1
            if tries > maxtries: raise e

An attempt is one iteration of the try-block, modelled as
`fetch : Nat → Except ε α` (the attempt index is passed so that tests can
make early attempts fail).  The result carries the total number of fetch
calls made, both on success and on the final raise. -/
def maxtriesVal : Nat := 5

def fetchRetry {ε α : Type} (fetch : Nat → Except ε α) (maxtries : Nat)
    (calls tries : Nat) : Except (ε × Nat) (α × Nat) :=
  match fetch calls with
  | Except.ok a => Except.ok (a, calls + 1)
  | Except.error e =>
      if tries + 1 > maxtries then Except.error (e, calls + 1)
      else fetchRetry fetch maxtries (calls + 1) (tries + 1)
  termination_by maxtries + 1 - tries
  decreasing_by omega

/-- The per-year fetch loop as run by the script: counters start at zero and
`maxtries = 5`. -/
def yearFetchLoop {ε α : Type} (fetch : Nat → Except ε α) : Except (ε × Nat) (α × Nat) :=
  fetchRetry fetch maxtriesVal 0 0

def c1WitnessFetch : Nat → Except Nat Nat := fun i =>
  if i < 2 then Except.error 7 else Except.ok 42

/-! ### Sleep placement in the retry loop

The try-block of the loop is

    handle = Entrez.efetch(...)   -- the fetch call; may raise
    time.sleep(delay)             -- the only sleep
    records = Entrez.read(handle) -- may raise

so the fixed delay sits between the fetch call and the read of its response;
the except-branch contains no sleep.  We model one run of the loop as the
sequence of events it emits, parameterised by the outcome of each attempt. -/
inductive Ev where
  | efetchCall : Ev
  | sleepDelay : Ev
  | readCall : Ev
  | raised : Ev
deriving DecidableEq

inductive AttemptOutcome where
  | fetchRaise : AttemptOutcome
  | readRaise : AttemptOutcome
  | readOk : AttemptOutcome
deriving DecidableEq

/-- Event trace of the `while not good_record` loop: on `fetchRaise` the
attempt emits only the fetch call before jumping to the except-branch; on
`readRaise` it emits fetch, sleep, read; on `readOk` the loop ends after the
same three events.  The except-branch emits `raised` once tries exceed
`maxtries`, else it loops straight back into the next fetch call. -/
def attemptTrace (o : Nat → AttemptOutcome) (maxtries att tries : Nat) : List Ev :=
  match o att with
  | AttemptOutcome.fetchRaise =>
      Ev.efetchCall ::
        (if tries + 1 > maxtries then [Ev.raised]
         else attemptTrace o maxtries (att + 1) (tries + 1))
  | AttemptOutcome.readRaise =>
      Ev.efetchCall :: Ev.sleepDelay :: Ev.readCall ::
        (if tries + 1 > maxtries then [Ev.raised]
         else attemptTrace o maxtries (att + 1) (tries + 1))
  | AttemptOutcome.readOk => [Ev.efetchCall, Ev.sleepDelay, Ev.readCall]
  termination_by maxtries + 1 - tries
  decreasing_by all_goals omega

def loopTrace (o : Nat → AttemptOutcome) : List Ev :=
  attemptTrace o maxtriesVal 0 0

/-- Checks that every gap between two consecutive fetch calls contains a
sleep event ("a sleep is executed before every retry").  `sawSleep` records
whether a sleep has occurred since the previous fetch call. -/
def gapOk (sawSleep : Bool) : List Ev → Bool
  | [] => true
  | Ev.efetchCall :: rest => sawSleep && gapOk false rest
  | Ev.sleepDelay :: rest => gapOk true rest
  | _ :: rest => gapOk sawSleep rest

def sleepBeforeEveryRetry (tr : List Ev) : Bool := gapOk true tr

/-- Checks that every sleep event sits directly between a fetch call and a
read call (the actual placement in the try-block). -/
def sleepPlacementOk : List Ev → Bool
  | Ev.efetchCall :: Ev.sleepDelay :: Ev.readCall :: rest => sleepPlacementOk rest
  | Ev.sleepDelay :: _ => false
  | _ :: rest => sleepPlacementOk rest
  | [] => true

/-! ### Per-year fetch stage and the empty-year skip

Mirrors the outer loop of `get_abstracts.py`:

    for year, pmids_year in pmids.items():
        if len(pmids_year) == 0: continue
        ... retry loop ...
        for i in records['PubmedArticle']:
            pmid = ...; abstract = ... or None
            pmid_records.append(PMID(pmid, year, abstract))

A fetched article carries its id and an optional abstract; a cache record
carries id, year, and optional abstract.  The fetch collaborator is a
function from (year, attempt index) to a fallible list of articles. -/
structure Article where
  pmid : Nat
  abstract : Option String
deriving DecidableEq

structure PMIDRec where
  pmid : Nat
  year : Nat
  abstract : Option String
deriving DecidableEq

/-- Processing of one year: years with an empty id list are skipped with no
fetch call; otherwise the retry loop runs and each fetched article becomes a
cache record tagged with the year.  Returns (fetch calls made, records), or
the propagated error. -/
def processYear {ε : Type} (fetchYear : Nat → Nat → Except ε (List Article))
    (year : Nat) (ids : List Nat) : Except (ε × Nat) (Nat × List PMIDRec) :=
  if ids.length = 0 then Except.ok (0, [])
  else
    match yearFetchLoop (fetchYear year) with
    | Except.ok (arts, n) =>
        Except.ok (n, arts.map (fun a => ⟨a.pmid, year, a.abstract⟩))
    | Except.error e => Except.error e

/-- The whole fetch stage: years processed in order, records concatenated,
and the run aborted on a propagated exception. -/
def runYears {ε : Type} (fetchYear : Nat → Nat → Except ε (List Article)) :
    List (Nat × List Nat) → Except (ε × Nat) (Nat × List PMIDRec)
  | [] => Except.ok (0, [])
  | (year, ids) :: rest =>
      match processYear fetchYear year ids with
      | Except.error e => Except.error e
      | Except.ok (n, recs) =>
          match runYears fetchYear rest with
          | Except.error e => Except.error e
          | Except.ok (n2, recs2) => Except.ok (n + n2, recs ++ recs2)

/-! ### Topics over time: per-year probabilities

Mirrors `get_topics_over_time` of `analyze_dynamic_topics.py`:

    topics_over_time = topics_over_time[topics_over_time['Timestamp'] > filter_date]
    topics_over_time['Sum'] = topics_over_time.groupby('Timestamp')['Frequency'].transform('sum')
    topics_over_time['Probability'] = topics_over_time['Frequency'] / topics_over_time['Sum']

Rows are (topic, timestamp, frequency); timestamps are modelled as integers
(the code builds them from integer years) and probabilities live in ℚ. -/
structure TotRow where
  topic : Int
  timestamp : Int
  frequency : Nat
deriving DecidableEq

def filterByDate (rows : List TotRow) (cutoff : Int) : List TotRow :=
  rows.filter (fun r => cutoff < r.timestamp)

/-- `groupby('Timestamp')['Frequency'].transform('sum')` evaluated at year `t`. -/
def yearSum (rows : List TotRow) (t : Int) : ℚ :=
  ((rows.filter (fun r => r.timestamp = t)).map (fun r => (r.frequency : ℚ))).sum

def rowProbability (rows : List TotRow) (r : TotRow) : ℚ :=
  (r.frequency : ℚ) / yearSum rows r.timestamp

def c6Rows : List TotRow := [⟨0, 2002, 3⟩, ⟨1, 2002, 1⟩, ⟨0, 1999, 2⟩]

/-! ### The `level_scale` dispatch of `get_clustered_topics`

    if level_scale == 'log' or level_scale == 'logarithmic': ...
    elif level_scale == 'lin' or level_scale == 'linear': ...
    else: raise ValueError("level_scale needs to be one of 'log' or 'linear'")
-/
inductive ScaleBranch where
  | logB : ScaleBranch
  | linB : ScaleBranch
  | errB : ScaleBranch
deriving DecidableEq

def scaleDispatch (level_scale : String) : ScaleBranch :=
  if level_scale = "log" ∨ level_scale = "logarithmic" then ScaleBranch.logB
  else if level_scale = "lin" ∨ level_scale = "linear" then ScaleBranch.linB
  else ScaleBranch.errB

def logAbbrev : String := "log"

def linAbbrev : String := "lin"

def linearName : String := "linear"

def logarithmicName : String := "logarithmic"

/-! ### Hierarchical level assignment (`get_clustered_topics`)

Mirrors the per-cutoff mapping construction:

    mapping = {topic: topic for topic in df.topic.unique()}
    selection = hierarchical_topics.loc[hierarchical_topics.Distance <= max_distance, :]
    selection = selection.sort_values("Parent_ID")
    for row in selection.iterrows():
        for topic in row[1].Topics:
            mapping[topic] = row[1].Parent_ID
    mappings = [True for _ in mapping]
    while any(mappings):
        for i, (key, value) in enumerate(mapping.items()):
            if value in mapping.keys() and key != value:
                mapping[key] = mapping[value]
            else:
                mappings[i] = False
    df[f"level_{index+1}"] = df.topic.map(mapping)

The mapping is a Python dict: an association list in insertion order, where
assigning an existing key updates in place and assigning a new key appends.
The while-loop may diverge, so it is modelled with explicit pass fuel,
returning `none` when the fuel runs out before a pass leaves every flag
false. -/
structure MergeRec where
  children : List Int
  parent : Int
  distance : ℚ

/-- `df.topic.unique()`: first-occurrence order. -/
def uniqueAux (seen : List Int) : List Int → List Int
  | [] => []
  | x :: xs => if seen.contains x then uniqueAux seen xs else x :: uniqueAux (x :: seen) xs

def uniqueFirst (l : List Int) : List Int := uniqueAux [] l

/-- Python dict assignment `d[k] = v`: update in place, or append a new key. -/
def dictSet : List (Int × Int) → Int → Int → List (Int × Int)
  | [], k, v => [(k, v)]
  | (k0, v0) :: rest, k, v =>
      if k0 = k then (k0, v) :: rest else (k0, v0) :: dictSet rest k v

def applyRecord (m : List (Int × Int)) (r : MergeRec) : List (Int × Int) :=
  r.children.foldl (fun m t => dictSet m t r.parent) m

def applyRecords (sel : List MergeRec) (m : List (Int × Int)) : List (Int × Int) :=
  sel.foldl applyRecord m

/-- `selection.sort_values("Parent_ID")` (parent ids are distinct in a
dendrogram, so the sort is unambiguous). -/
def insertByParent (r : MergeRec) : List MergeRec → List MergeRec
  | [] => [r]
  | s :: rest =>
      if r.parent ≤ s.parent then r :: s :: rest else s :: insertByParent r rest

def sortByParent : List MergeRec → List MergeRec
  | [] => []
  | r :: rest => insertByParent r (sortByParent rest)

def selectionOf (records : List MergeRec) (maxDist : ℚ) : List MergeRec :=
  sortByParent (records.filter (fun r => decide (r.distance ≤ maxDist)))

def initMapping (docTopics : List Int) : List (Int × Int) :=
  (uniqueFirst docTopics).map (fun t => (t, t))

/-- The child→parent mapping after the per-record assignment phase. -/
def assembled (docTopics : List Int) (records : List MergeRec) (maxDist : ℚ) :
    List (Int × Int) :=
  applyRecords (selectionOf records maxDist) (initMapping docTopics)

/-- One slot of the resolution state: a mapping item together with its
`mappings[i]` flag. -/
structure REntry where
  key : Int
  value : Int
  flag : Bool
deriving DecidableEq

def toEntries (m : List (Int × Int)) : List REntry :=
  m.map (fun p => ⟨p.1, p.2, true⟩)

def keysOf (st : List REntry) : List Int := st.map (fun e => e.key)

/-- `mapping[v]` on the current dict (only evaluated under the containment
check; the default is never reached there). -/
def lookupVal (st : List REntry) (v : Int) : Int :=
  match st.find? (fun e => e.key == v) with
  | some e => e.value
  | none => v

/-- `value in mapping.keys() and key != value` on the current dict. -/
def condCheck (cur : List REntry) (e : REntry) : Bool :=
  (keysOf cur).contains e.value && e.key != e.value

/-- One full pass of the `for i, (key, value) in enumerate(mapping.items())`
loop: entries are processed left to right; an entry's update is visible to
the lookups of later entries. -/
def passAux (acc : List REntry) : List REntry → List REntry
  | [] => acc.reverse
  | e :: rest =>
      if condCheck (acc.reverse ++ e :: rest) e then
        passAux ({ e with value := lookupVal (acc.reverse ++ e :: rest) e.value } :: acc) rest
      else
        passAux ({ e with flag := false } :: acc) rest

def resolvePass (st : List REntry) : List REntry := passAux [] st

def anyFlag (st : List REntry) : Bool := st.any (fun e => e.flag)

/-- The `while any(mappings)` loop with pass fuel: `none` means the loop was
still running after `fuel` passes. -/
def resolveLoop : Nat → List REntry → Option (List (Int × Int))
  | 0, _ => none
  | fuel + 1, st =>
      if anyFlag st then resolveLoop fuel (resolvePass st)
      else some (st.map (fun e => (e.key, e.value)))

/-- The per-cutoff level-assignment mapping of `get_clustered_topics`. -/
def levelMapping (docTopics : List Int) (records : List MergeRec) (maxDist : ℚ)
    (fuel : Nat) : Option (List (Int × Int)) :=
  resolveLoop fuel (toEntries (assembled docTopics records maxDist))

/-- `df.topic.map(mapping)` for one document topic (every document topic is a
key of the mapping, so the default branch is never reached there). -/
def mapVal (m : List (Int × Int)) (t : Int) : Int :=
  match m.find? (fun p => p.1 == t) with
  | some p => p.2
  | none => t

/-- The merge records of the spec's worked example:
`[(children={0,1}, parent=10, distance=0.1), (children={10,2}, parent=11, distance=0.3)]`. -/
def mergeRec1 : MergeRec := ⟨[0, 1], 10, 0.1⟩

def mergeRec2 : MergeRec := ⟨[10, 2], 11, 0.3⟩

def exRecords : List MergeRec := [mergeRec1, mergeRec2]

/-- The document-level topic assignments for the example: the original
(leaf) topics 0, 1, 2. -/
def exTopics : List Int := [0, 1, 2]

/-- Every entry's value is related to its key (`Rel` is instantiated with
"is a step-iterate of" in the chase analysis, or trivially). -/
def entriesGood (Rel : Int → Int → Prop) (st : List REntry) : Prop :=
  ∀ e ∈ st, Rel e.key e.value

/-- A flag can only have been set false by the else-branch, whose condition
pins the entry's value: each flag-false entry maps to itself or outside the
key set.  (Such an entry is also never updated again.) -/
def entriesSafe (K : List Int) (st : List REntry) : Prop :=
  ∀ e ∈ st, e.flag = false → e.value = e.key ∨ K.contains e.value = false

/-- A document-topic set that contains the parent ids 10 and 11 themselves. -/
def cexTopics : List Int := [0, 1, 2, 10, 11]

/-- The state the resolution loop reaches after one pass on `cexTopics` with
cutoff 0.2: keys 0 and 1 map to 10, which is a key distinct from them, so
their flags can never be set false and the state no longer changes. -/
def c3Stuck : List REntry :=
  [⟨0, 10, true⟩, ⟨1, 10, true⟩, ⟨2, 2, false⟩, ⟨10, 10, false⟩, ⟨11, 11, false⟩]

def exRank : Int → Nat := fun t => if t = 10 then 1 else if t = 11 then 2 else 0

def c3wRecords : List MergeRec := [⟨[0, 1], 10, 0.1⟩, ⟨[2, 3], 11, 0.3⟩]

/-! ### The worked example of the spec (claim C2) -/
/-- Equality of two association lists as Python dicts: same key set and the
same value at every key. -/
def pyDictEq (a b : List (Int × Int)) : Bool :=
  a.all (fun p => (b.map Prod.fst).contains p.1 && (mapVal b p.1 == p.2)) &&
  b.all (fun p => (a.map Prod.fst).contains p.1 && (mapVal a p.1 == p.2))

/-- The mapping claimed by the spec for cutoff 0.2. -/
def claimed02 : List (Int × Int) := [(0, 10), (1, 10), (2, 2), (10, 10), (11, 11)]

/-- The mapping claimed by the spec for cutoff 0.35. -/
def claimed035 : List (Int × Int) := [(0, 11), (1, 11), (2, 11), (10, 11), (11, 11)]

/-! ### Per-topic document sampling of `get_clustered_topics`

    for topic in set(topic_per_doc):
        s = np.where(np.array(topic_per_doc) == topic)[0]
        size = len(s) if len(s) < 100 else int(len(s))
        indices.extend(np.random.choice(s, size=size, replace=False))

Both branches of the conditional give `size = len(s)`, so the draw without
replacement returns all of `s` in some order.  Randomness is modelled by an
arbitrary `choice` function subject to the contract of a draw without
replacement: distinct indices taken from `s`, exactly `size` of them. -/
def sampleSize (s_len : Nat) : Nat := if s_len < 100 then s_len else s_len

/-- `np.where(np.array(topic_per_doc) == topic)[0]`: positions of the topic,
in increasing order. -/
def whereEq (tpd : List Int) (t : Int) : List Nat :=
  (List.range tpd.length).filter (fun i => tpd.getD i 0 == t)

def sampledIndices (tpd : List Int) (choice : Int → List Nat) : List Nat :=
  ((uniqueFirst tpd).map choice).flatten

/-! ### The chase semantics of the resolution loop

Following the mapping from a topic through child→parent links of the selected
records, until reaching an id that is not a child of any selected record.
When the selected records are tree-structured (each child determines its
parent; a `rank` function increases from children to parents), this chase
stabilises and, whenever the resolution loop terminates, it computes exactly
this chase. -/
def stepTopic (S : List MergeRec) (x : Int) : Int :=
  match S.find? (fun r => r.children.contains x) with
  | some r => r.parent
  | none => x

def chaseTopic (S : List MergeRec) (x : Int) : Int := (stepTopic S)^[S.length] x

/-- The number of selected records whose parent ranks above `x`: a measure
that strictly decreases along non-trivial chase steps. -/
def phiM (S : List MergeRec) (rank : Int → Nat) (x : Int) : Nat :=
  (S.filter (fun r => decide (rank x < rank r.parent))).length

/-- The number of distinct representatives assigned to the documents at one
level (`df.topic.map(mapping)`, counted without duplicates). -/
def levelCount (m : List (Int × Int)) (docTopics : List Int) : Nat :=
  ((docTopics.map (fun t => mapVal m t)).dedup).length

/-- The number of distinct values of the resolved mapping itself. -/
def repCount (m : List (Int × Int)) : Nat := ((m.map Prod.snd).dedup).length

/-- A single tree-structured merge record whose children are not document
topics. -/
def c7Records : List MergeRec := [⟨[1, 2], 10, 0.1⟩]

def c7Rank : Int → Nat := fun t => if t = 10 then 1 else 0

/-- If the first `j` attempts (starting at `calls`) fail and attempt `calls+j`
succeeds, and the failure budget is not exhausted, the loop returns the
successful value having made `calls + j + 1` fetch calls in total. -/
theorem fetchRetry_ok {ε α : Type} (fetch : Nat → Except ε α) (maxtries : Nat) :
    ∀ (j calls tries : Nat) (a : α), tries + j ≤ maxtries →
    (∀ i, i < j → ∃ e, fetch (calls + i) = Except.error e) →
    fetch (calls + j) = Except.ok a →
    fetchRetry fetch maxtries calls tries = Except.ok (a, calls + j + 1) := by
  intro j
  induction j with
  | zero =>
      intro calls tries a _ _ hok
      rw [fetchRetry]
      simp only [Nat.add_zero] at hok
      rw [hok]
  | succ j ih =>
      intro calls tries a hle hfail hok
      obtain ⟨e, he⟩ := hfail 0 (Nat.succ_pos j)
      rw [fetchRetry]
      simp only [Nat.add_zero] at he
      rw [he]
      simp only
      have hnot : ¬ tries + 1 > maxtries := by omega
      rw [if_neg hnot]
      have := ih (calls + 1) (tries + 1) a (by omega)
        (fun i hi => by
          have := hfail (i + 1) (by omega)
          simpa [Nat.add_assoc, Nat.add_comm 1 i] using this)
        (by simpa [Nat.add_assoc, Nat.add_comm 1 j] using hok)
      rw [this]
      congr 2
      omega

/-- If every attempt fails, the loop raises after making
`calls + (maxtries + 1 - tries)` fetch calls in total. -/
theorem fetchRetry_err {ε α : Type} (fetch : Nat → Except ε α) (maxtries : Nat) :
    ∀ (fuel calls tries : Nat), tries + fuel = maxtries →
    (∀ i, ∃ e, fetch i = Except.error e) →
    ∃ e, fetchRetry fetch maxtries calls tries = Except.error (e, calls + fuel + 1) := by
  intro fuel
  induction fuel with
  | zero =>
      intro calls tries htr hfail
      obtain ⟨e, he⟩ := hfail calls
      refine ⟨e, ?_⟩
      rw [fetchRetry, he]
      simp only
      rw [if_pos (by omega)]
  | succ fuel ih =>
      intro calls tries htr hfail
      obtain ⟨e, he⟩ := hfail calls
      obtain ⟨e', he'⟩ := ih (calls + 1) (tries + 1) (by omega) hfail
      refine ⟨e', ?_⟩
      rw [fetchRetry, he]
      simp only
      rw [if_neg (by omega), he']
      congr 2
      omega

/-- Claim C1 (as stated in the spec, second half): with an always-failing
fetch the loop would raise after exactly 5 attempts.  In fact `tries` starts
at 0 and the loop raises only once `tries > maxtries`, i.e. on the 6th
failure: the loop makes 6 fetch calls, not 5. -/
theorem C1_counterexample :
    (∃ e : Nat, yearFetchLoop (fun _ => (Except.error 0 : Except Nat Unit)) =
      Except.error (e, 6)) ∧
    ¬ (∃ e : Nat, yearFetchLoop (fun _ => (Except.error 0 : Except Nat Unit)) =
      Except.error (e, 5)) := by
  have h6 := fetchRetry_err (fun _ => (Except.error 0 : Except Nat Unit)) maxtriesVal
      5 0 0 rfl (fun _ => ⟨0, rfl⟩)
  constructor
  · simpa [yearFetchLoop] using h6
  · rintro ⟨e, he⟩
    obtain ⟨e', he'⟩ := h6
    rw [yearFetchLoop] at he
    rw [he] at he'
    exact absurd (congrArg (fun x => match x with
      | Except.error (_, n) => n
      | Except.ok _ => 0) he') (by simp)

/-- Claim C1, amended: if the fetch fails exactly `k` times (`k < 5`) and then
succeeds, the loop returns the successful result after exactly `k + 1` fetch
calls; if the fetch fails on every attempt, the loop raises the final
exception after exactly 6 attempts (`maxtries + 1`, since `tries` starts at 0
and the loop only raises once `tries > maxtries`). -/
theorem C1_amended {ε α : Type} (fetch : Nat → Except ε α) :
    (∀ (k : Nat) (a : α), k < 5 →
      (∀ i, i < k → ∃ e, fetch i = Except.error e) →
      fetch k = Except.ok a →
      yearFetchLoop fetch = Except.ok (a, k + 1)) ∧
    ((∀ i, ∃ e, fetch i = Except.error e) →
      ∃ e, yearFetchLoop fetch = Except.error (e, 6)) := by
  constructor
  · intro k a hk hfail hok
    have := fetchRetry_ok fetch maxtriesVal k 0 0 a
      (by simp [maxtriesVal]; omega)
      (fun i hi => by simpa using hfail i hi)
      (by simpa using hok)
    simpa [yearFetchLoop] using this
  · intro hfail
    have := fetchRetry_err fetch maxtriesVal 5 0 0 rfl hfail
    simpa [yearFetchLoop] using this

/-- Witness for `C1_amended`: a fetch that fails twice then succeeds is retried
to success with 3 calls; and an always-failing fetch raises after 6 calls. -/
theorem C1_amended_witness :
    yearFetchLoop c1WitnessFetch = Except.ok (42, 3) ∧
    ∃ e : Nat, yearFetchLoop (fun _ => (Except.error 3 : Except Nat Unit)) =
      Except.error (e, 6) := by
  constructor
  · exact (C1_amended c1WitnessFetch).1 2 42 (by decide)
      (fun i hi => ⟨7, by interval_cases i <;> rfl⟩) rfl
  · exact (C1_amended (fun _ => (Except.error 3 : Except Nat Unit))).2
      (fun _ => ⟨3, rfl⟩)

theorem attemptTrace_head (o : Nat → AttemptOutcome) (maxtries att tries : Nat) :
    ∃ T, attemptTrace o maxtries att tries = Ev.efetchCall :: T := by
  rw [attemptTrace]
  cases o att <;> exact ⟨_, rfl⟩

theorem spOk_fetch_fetch (l : List Ev) :
    sleepPlacementOk (Ev.efetchCall :: Ev.efetchCall :: l) =
      sleepPlacementOk (Ev.efetchCall :: l) := rfl

theorem spOk_triple (l : List Ev) :
    sleepPlacementOk (Ev.efetchCall :: Ev.sleepDelay :: Ev.readCall :: l) =
      sleepPlacementOk l := rfl

/-- Claim C8 (as stated): every retry is preceded by a sleep.  With a fetch
call that raises on every attempt, the loop re-enters `Entrez.efetch`
immediately: the trace is six consecutive fetch calls followed by the raise,
with no sleep anywhere. -/
theorem C8_counterexample :
    loopTrace (fun _ => AttemptOutcome.fetchRaise) =
      [Ev.efetchCall, Ev.efetchCall, Ev.efetchCall, Ev.efetchCall,
       Ev.efetchCall, Ev.efetchCall, Ev.raised] ∧
    sleepBeforeEveryRetry (loopTrace (fun _ => AttemptOutcome.fetchRaise)) = false := by
  have h : loopTrace (fun _ => AttemptOutcome.fetchRaise) =
      [Ev.efetchCall, Ev.efetchCall, Ev.efetchCall, Ev.efetchCall,
       Ev.efetchCall, Ev.efetchCall, Ev.raised] := by
    rw [loopTrace]
    rw [attemptTrace]; simp only [maxtriesVal]; norm_num
    rw [attemptTrace]; simp only; norm_num
    rw [attemptTrace]; simp only; norm_num
    rw [attemptTrace]; simp only; norm_num
    rw [attemptTrace]; simp only; norm_num
    rw [attemptTrace]; simp only; norm_num
  exact ⟨h, by rw [h]; rfl⟩

/-- Claim C8, amended: no sleep is executed between a failed fetch call and
the next attempt; the fixed delay instead occurs inside each attempt, between
the fetch call and the read of its response (and hence only when the fetch
call itself did not raise). -/
theorem C8_amended (o : Nat → AttemptOutcome) :
    sleepPlacementOk (loopTrace o) = true := by
  rw [loopTrace]
  have main : ∀ fuel maxtries tries att, maxtries + 1 - tries ≤ fuel →
      sleepPlacementOk (attemptTrace o maxtries att tries) = true := by
    intro fuel
    induction fuel with
    | zero =>
        intro maxtries tries att hle
        have hgt : tries + 1 > maxtries := by omega
        rw [attemptTrace]
        cases h : o att
        · rw [if_pos hgt]; rfl
        · rw [if_pos hgt]; rfl
        · rfl
    | succ fuel ih =>
        intro maxtries tries att hle
        rw [attemptTrace]
        cases h : o att
        · by_cases hgt : tries + 1 > maxtries
          · rw [if_pos hgt]; rfl
          · rw [if_neg hgt]
            obtain ⟨T, hT⟩ := attemptTrace_head o maxtries (att + 1) (tries + 1)
            rw [hT, spOk_fetch_fetch, ← hT]
            exact ih maxtries (tries + 1) (att + 1) (by omega)
        · by_cases hgt : tries + 1 > maxtries
          · rw [if_pos hgt]; rfl
          · rw [if_neg hgt, spOk_triple]
            exact ih maxtries (tries + 1) (att + 1) (by omega)
        · rfl
  exact main (maxtriesVal + 1) maxtriesVal 0 0 (by omega)

theorem processYear_nil {ε : Type} (fetchYear : Nat → Nat → Except ε (List Article))
    (year : Nat) : processYear fetchYear year [] = Except.ok (0, []) := rfl

/-- Claim C9: a year whose identifier list is empty is skipped: zero fetch
calls are issued for it and it contributes zero records — removing such a
year from the cache leaves the result of the whole fetch stage (call count,
records and error behaviour) unchanged. -/
theorem C9_empty_year {ε : Type} (fetchYear : Nat → Nat → Except ε (List Article))
    (before after : List (Nat × List Nat)) (y : Nat) :
    processYear fetchYear y [] = Except.ok (0, []) ∧
    runYears fetchYear (before ++ (y, []) :: after) = runYears fetchYear (before ++ after) := by
  refine ⟨rfl, ?_⟩
  induction before with
  | nil =>
      simp only [List.nil_append]
      rw [runYears, processYear_nil]
      cases h : runYears fetchYear after with
      | error e => simp
      | ok p => obtain ⟨n2, recs2⟩ := p; simp
  | cons b rest ih =>
      obtain ⟨year, ids⟩ := b
      simp only [List.cons_append]
      rw [runYears, runYears]
      rw [ih]

theorem sum_map_div (l : List ℚ) (c : ℚ) :
    (l.map (fun x => x / c)).sum = l.sum / c := by
  induction l with
  | nil => simp
  | cons a l ih => simp [ih, add_div]

/-- Claim C6: after the date filter, for every year with nonzero total
frequency the probabilities of that year's rows (frequency over the year's
total) sum to 1. -/
theorem C6_prob_sum_one (rows : List TotRow) (cutoff : Int) (t : Int)
    (hne : yearSum (filterByDate rows cutoff) t ≠ 0) :
    (((filterByDate rows cutoff).filter (fun r => r.timestamp = t)).map
      (rowProbability (filterByDate rows cutoff))).sum = 1 := by
  set f := filterByDate rows cutoff with hf
  have hcong : ((f.filter (fun r => r.timestamp = t)).map (rowProbability f)) =
      ((f.filter (fun r => r.timestamp = t)).map
        (fun r => (r.frequency : ℚ) / yearSum f t)) := by
    apply List.map_congr_left
    intro r hr
    have ht : r.timestamp = t := by
      have := List.of_mem_filter hr
      exact of_decide_eq_true this
    rw [rowProbability, ht]
  rw [hcong]
  have hmap : ((f.filter (fun r => r.timestamp = t)).map
        (fun r => (r.frequency : ℚ) / yearSum f t)) =
      (((f.filter (fun r => r.timestamp = t)).map
        (fun r => (r.frequency : ℚ))).map (fun x => x / yearSum f t)) := by
    rw [List.map_map]; rfl
  rw [hmap, sum_map_div]
  rw [yearSum] at hne ⊢
  exact div_self hne

/-- Witness for `C6_prob_sum_one` at a concrete table. -/
theorem C6_witness :
    ((( filterByDate c6Rows 2001).filter (fun r => r.timestamp = 2002)).map
      (rowProbability (filterByDate c6Rows 2001))).sum = 1 :=
  C6_prob_sum_one c6Rows 2001 2002 (by norm_num [yearSum, filterByDate, c6Rows])

/-- Claim C5 (as stated): the routine raises if and only if the policy is
neither "linear" nor "logarithmic".  False: the string "log" is neither of
those two, yet it selects the logarithmic branch and does not raise. -/
theorem C5_counterexample :
    scaleDispatch logAbbrev ≠ ScaleBranch.errB ∧
    logAbbrev ≠ linearName ∧ logAbbrev ≠ logarithmicName := by
  refine ⟨by decide, by decide, by decide⟩

/-- Claim C5, amended: the routine raises the invalid-configuration error if
and only if the policy is none of "log", "logarithmic", "lin", "linear"; in
particular "linear" and "logarithmic" do not raise on that check. -/
theorem C5_amended (level_scale : String) :
    (scaleDispatch level_scale = ScaleBranch.errB ↔
      ¬ (level_scale = "log" ∨ level_scale = "logarithmic" ∨
         level_scale = "lin" ∨ level_scale = "linear")) ∧
    scaleDispatch linearName ≠ ScaleBranch.errB ∧
    scaleDispatch logarithmicName ≠ ScaleBranch.errB := by
  refine ⟨?_, by decide, by decide⟩
  rw [scaleDispatch]
  by_cases h1 : level_scale = "log" ∨ level_scale = "logarithmic"
  · rw [if_pos h1]
    constructor
    · intro h; exact absurd h (by decide)
    · intro h
      exact absurd (Or.elim h1 Or.inl (fun h2 => Or.inr (Or.inl h2))) h
  · rw [if_neg h1]
    by_cases h2 : level_scale = "lin" ∨ level_scale = "linear"
    · rw [if_pos h2]
      constructor
      · intro h; exact absurd h (by decide)
      · intro h
        exact absurd (Or.elim h2 (fun ha => Or.inr (Or.inr (Or.inl ha)))
          (fun hb => Or.inr (Or.inr (Or.inr hb)))) h
    · rw [if_neg h2]
      constructor
      · intro _ hor
        rcases hor with ha | hb | hc | hd
        · exact h1 (Or.inl ha)
        · exact h1 (Or.inr hb)
        · exact h2 (Or.inl hc)
        · exact h2 (Or.inr hd)
      · intro _; rfl

theorem exSelection02 : selectionOf exRecords (0.2 : ℚ) = [mergeRec1] := by
  rw [selectionOf, exRecords]
  rw [List.filter_cons, List.filter_cons, List.filter_nil]
  rw [if_pos (by rw [decide_eq_true_eq]; rw [mergeRec1]; norm_num)]
  rw [if_neg (by rw [decide_eq_true_eq]; rw [mergeRec2]; norm_num)]
  rfl

theorem exSelection035 : selectionOf exRecords (0.35 : ℚ) = [mergeRec1, mergeRec2] := by
  rw [selectionOf, exRecords]
  rw [List.filter_cons, List.filter_cons, List.filter_nil]
  rw [if_pos (by rw [decide_eq_true_eq]; rw [mergeRec1]; norm_num)]
  rw [if_pos (by rw [decide_eq_true_eq]; rw [mergeRec2]; norm_num)]
  rw [sortByParent, sortByParent, sortByParent, insertByParent, insertByParent]
  rw [if_pos (by rw [mergeRec1, mergeRec2]; norm_num)]

theorem exMapping02 :
    levelMapping exTopics exRecords (0.2 : ℚ) 30 = some [(0, 10), (1, 10), (2, 2)] := by
  rw [levelMapping, assembled, exSelection02]
  decide

theorem exMapping035 :
    levelMapping exTopics exRecords (0.35 : ℚ) 30 =
      some [(0, 11), (1, 11), (2, 11), (10, 11)] := by
  rw [levelMapping, assembled, exSelection035]
  decide

/-! ### Invariants of the fixed-point resolution loop -/
theorem keysOf_append (a b : List REntry) : keysOf (a ++ b) = keysOf a ++ keysOf b :=
  List.map_append _ a b

theorem keysOf_cons (e : REntry) (l : List REntry) :
    keysOf (e :: l) = e.key :: keysOf l := rfl

theorem lookupVal_spec (st : List REntry) (v : Int)
    (h : (keysOf st).contains v = true) :
    ∃ e ∈ st, e.key = v ∧ lookupVal st v = e.value := by
  have hmem : v ∈ keysOf st := by
    simpa using h
  obtain ⟨e0, he0, hk0⟩ := List.mem_map.mp hmem
  have hsome : (st.find? (fun e => e.key == v)).isSome := by
    rw [List.find?_isSome]
    exact ⟨e0, he0, by simpa using hk0⟩
  obtain ⟨e, he⟩ := Option.isSome_iff_exists.mp hsome
  refine ⟨e, List.mem_of_find?_eq_some he, ?_, ?_⟩
  · have := List.find?_some he
    simpa using this
  · rw [lookupVal, he]

theorem passAux_master (Rel : Int → Int → Prop)
    (htrans : ∀ k v w, Rel k v → Rel v w → Rel k w) (K : List Int) :
    ∀ (l acc : List REntry),
      keysOf acc.reverse ++ keysOf l = K →
      entriesGood Rel (acc.reverse ++ l) →
      entriesSafe K (acc.reverse ++ l) →
      keysOf (passAux acc l) = K ∧ entriesGood Rel (passAux acc l) ∧
        entriesSafe K (passAux acc l) := by
  intro l
  induction l with
  | nil =>
      intro acc hK hG hS
      rw [passAux]
      simp only [List.append_nil] at hG hS
      simp only [keysOf, List.map_nil, List.append_nil] at hK
      exact ⟨hK, hG, hS⟩
  | cons e rest ih =>
      intro acc hK hG hS
      have hcurK : keysOf (acc.reverse ++ e :: rest) = K := by
        rw [keysOf_append]; exact hK
      rw [passAux]
      by_cases hcond : condCheck (acc.reverse ++ e :: rest) e = true
      · rw [if_pos hcond]
        have hcont : (keysOf (acc.reverse ++ e :: rest)).contains e.value = true := by
          have := hcond
          rw [condCheck, Bool.and_eq_true] at this
          exact this.1
        obtain ⟨e2, he2mem, he2key, he2look⟩ :=
          lookupVal_spec (acc.reverse ++ e :: rest) e.value hcont
        have hemem : e ∈ acc.reverse ++ e :: rest := by simp
        have hrelnew : Rel e.key (lookupVal (acc.reverse ++ e :: rest) e.value) := by
          rw [he2look]
          exact htrans e.key e.value e2.value (hG e hemem) (he2key ▸ hG e2 he2mem)
        have hflagnew : ({ e with value := lookupVal (acc.reverse ++ e :: rest) e.value } :
            REntry).flag = false → False := by
          intro hf
          rcases hS e hemem hf with hv | hv
          · rw [condCheck, Bool.and_eq_true] at hcond
            have := hcond.2
            rw [bne_iff_ne] at this
            exact this hv.symm
          · rw [hcurK] at hcont
            rw [hcont] at hv
            exact absurd hv (by decide)
        apply ih
        · rw [List.reverse_cons, keysOf_append]
          simp only [keysOf] at hK ⊢
          simpa using hK
        · intro x hx
          rw [List.reverse_cons, List.append_assoc] at hx
          simp only [List.singleton_append] at hx
          rcases List.mem_append.mp hx with hx1 | hx2
          · exact hG x (List.mem_append.mpr (Or.inl hx1))
          · rcases List.mem_cons.mp hx2 with hx3 | hx4
            · subst hx3; exact hrelnew
            · exact hG x (by simp [hx4])
        · intro x hx hxf
          rw [List.reverse_cons, List.append_assoc] at hx
          simp only [List.singleton_append] at hx
          rcases List.mem_append.mp hx with hx1 | hx2
          · exact hS x (List.mem_append.mpr (Or.inl hx1)) hxf
          · rcases List.mem_cons.mp hx2 with hx3 | hx4
            · exact absurd (hx3 ▸ hxf) (fun h => hflagnew h)
            · exact hS x (by simp [hx4]) hxf
      · rw [if_neg hcond]
        have hsafe : e.value = e.key ∨ K.contains e.value = false := by
          rw [condCheck, Bool.and_eq_true] at hcond
          push_neg at hcond
          by_cases hc : (keysOf (acc.reverse ++ e :: rest)).contains e.value = true
          · have := hcond hc
            left
            have : ¬ e.key ≠ e.value := by
              intro hne
              exact this (bne_iff_ne.mpr hne)
            push_neg at this
            exact this.symm
          · right
            rw [← hcurK]
            exact Bool.not_eq_true _ ▸ (Bool.eq_false_iff.mpr (fun h => hc h)) 
        apply ih
        · rw [List.reverse_cons, keysOf_append]
          simp only [keysOf] at hK ⊢
          simpa using hK
        · intro x hx
          rw [List.reverse_cons, List.append_assoc] at hx
          simp only [List.singleton_append] at hx
          rcases List.mem_append.mp hx with hx1 | hx2
          · exact hG x (List.mem_append.mpr (Or.inl hx1))
          · rcases List.mem_cons.mp hx2 with hx3 | hx4
            · subst hx3
              exact hG e (by simp)
            · exact hG x (by simp [hx4])
        · intro x hx hxf
          rw [List.reverse_cons, List.append_assoc] at hx
          simp only [List.singleton_append] at hx
          rcases List.mem_append.mp hx with hx1 | hx2
          · exact hS x (List.mem_append.mpr (Or.inl hx1)) hxf
          · rcases List.mem_cons.mp hx2 with hx3 | hx4
            · subst hx3; exact hsafe
            · exact hS x (by simp [hx4]) hxf

theorem resolveLoop_master (Rel : Int → Int → Prop)
    (htrans : ∀ k v w, Rel k v → Rel v w → Rel k w) (K : List Int) :
    ∀ (fuel : Nat) (st : List REntry) (m : List (Int × Int)),
      keysOf st = K → entriesGood Rel st → entriesSafe K st →
      resolveLoop fuel st = some m →
      m.map Prod.fst = K ∧ ∀ p ∈ m, Rel p.1 p.2 ∧ (p.2 = p.1 ∨ K.contains p.2 = false) := by
  intro fuel
  induction fuel with
  | zero =>
      intro st m _ _ _ hrun
      exact absurd hrun (by rw [resolveLoop]; exact Option.noConfusion)
  | succ fuel ih =>
      intro st m hK hG hS hrun
      rw [resolveLoop] at hrun
      by_cases hany : anyFlag st = true
      · rw [if_pos hany] at hrun
        have hmaster := passAux_master Rel htrans K st []
          (by simpa [keysOf] using hK) (by simpa using hG) (by simpa using hS)
        exact ih (passAux [] st) m hmaster.1 hmaster.2.1 hmaster.2.2
          (by rw [← hrun]; rfl)
      · rw [if_neg hany] at hrun
        have hm : m = st.map (fun e => (e.key, e.value)) := (Option.some.injEq _ _ ▸ hrun).symm
        have hallfalse : ∀ e ∈ st, e.flag = false := by
          intro e he
          rw [anyFlag] at hany
          rcases Bool.eq_false_or_eq_true e.flag with h | h
          · exact absurd (List.any_eq_true.mpr ⟨e, he, h⟩) hany
          · exact h
        constructor
        · rw [hm, List.map_map]
          exact hK
        · intro p hp
          rw [hm] at hp
          obtain ⟨e, he, hpe⟩ := List.mem_map.mp hp
          have h1 : p.1 = e.key := by rw [← hpe]
          have h2 : p.2 = e.value := by rw [← hpe]
          rw [h1, h2]
          exact ⟨hG e he, hS e he (hallfalse e he)⟩

theorem mapVal_spec (m : List (Int × Int)) (t : Int)
    (h : (m.map Prod.fst).contains t = true) :
    ∃ p ∈ m, p.1 = t ∧ mapVal m t = p.2 := by
  have hmem : t ∈ m.map Prod.fst := by simpa using h
  obtain ⟨p0, hp0, hk0⟩ := List.mem_map.mp hmem
  have hsome : (m.find? (fun p => p.1 == t)).isSome := by
    rw [List.find?_isSome]
    exact ⟨p0, hp0, by simpa using hk0⟩
  obtain ⟨p, hp⟩ := Option.isSome_iff_exists.mp hsome
  refine ⟨p, List.mem_of_find?_eq_some hp, ?_, ?_⟩
  · have := List.find?_some hp
    simpa using this
  · rw [mapVal, hp]

/-- Claim C4: when the resolution loop of `get_clustered_topics` completes,
the resulting level-assignment mapping is idempotent: if a topic's image is
itself a key of the mapping, mapping it again changes nothing.  (At loop exit
every `mappings[i]` flag is false, and a flag only becomes false when the
entry maps to itself or to a non-key.) -/
theorem C4_idempotent (docTopics : List Int) (records : List MergeRec)
    (maxDist : ℚ) (fuel : Nat) (m : List (Int × Int))
    (hrun : levelMapping docTopics records maxDist fuel = some m)
    (t : Int) (ht : (m.map Prod.fst).contains t = true)
    (hv : (m.map Prod.fst).contains (mapVal m t) = true) :
    mapVal m (mapVal m t) = mapVal m t := by
  have hmaster := resolveLoop_master (fun _ _ => True) (fun _ _ _ _ _ => trivial)
    (keysOf (toEntries (assembled docTopics records maxDist))) fuel
    (toEntries (assembled docTopics records maxDist)) m rfl
    (fun _ _ => trivial)
    (fun e he hef => by
      rw [toEntries] at he
      obtain ⟨p, _, hpe⟩ := List.mem_map.mp he
      rw [← hpe] at hef
      simp at hef)
    hrun
  obtain ⟨p, hp, hpt, hpval⟩ := mapVal_spec m t ht
  rcases (hmaster.2 p hp).2 with hself | hout
  · rw [hpval, hself, hpt]
    exact hpval.trans (hself.trans hpt)
  · rw [hmaster.1] at hv
    rw [hpval] at hv
    exact absurd hv (by rw [hout]; decide)

/-! ### Characterisation of the assignment phase -/
theorem mapVal_nil (x : Int) : mapVal [] x = x := rfl

theorem mapVal_cons (q : Int × Int) (rest : List (Int × Int)) (x : Int) :
    mapVal (q :: rest) x = if q.1 = x then q.2 else mapVal rest x := by
  by_cases h : q.1 = x
  · rw [if_pos h, mapVal, List.find?_cons_of_pos _ (by simpa using h)]
  · rw [if_neg h, mapVal, List.find?_cons_of_neg _ (by simpa using h), mapVal]

theorem mapVal_dictSet (m : List (Int × Int)) (k v x : Int) :
    mapVal (dictSet m k v) x = if x = k then v else mapVal m x := by
  induction m with
  | nil =>
      rw [dictSet, mapVal_cons, mapVal_nil]
      by_cases h : x = k
      · rw [if_pos h, if_pos h.symm]
      · rw [if_neg h, if_neg (fun hh => h hh.symm)]
  | cons q rest ih =>
      obtain ⟨k0, v0⟩ := q
      by_cases hq : k0 = k
      · rw [dictSet, if_pos hq, mapVal_cons, mapVal_cons]
        by_cases hx : k0 = x
        · rw [if_pos hx, if_pos hx, if_pos (by rw [← hx, hq])]
        · rw [if_neg hx, if_neg hx, if_neg (by rw [← hq]; exact fun hh => hx hh.symm)]
      · rw [dictSet, if_neg hq, mapVal_cons, mapVal_cons, ih]
        by_cases hx : k0 = x
        · rw [if_pos hx, if_pos hx, if_neg (by rw [← hx]; exact hq)]
        · rw [if_neg hx, if_neg hx]

theorem keys_dictSet (m : List (Int × Int)) (k v x : Int) :
    x ∈ (dictSet m k v).map Prod.fst ↔ x ∈ m.map Prod.fst ∨ x = k := by
  induction m with
  | nil => simp [dictSet]
  | cons q rest ih =>
      obtain ⟨k0, v0⟩ := q
      by_cases hq : k0 = k
      · rw [dictSet, if_pos hq]
        simp only [List.map_cons, List.mem_cons]
        constructor
        · rintro (h | h)
          · exact Or.inl (Or.inl h)
          · exact Or.inl (Or.inr h)
        · rintro ((h | h) | h)
          · exact Or.inl h
          · exact Or.inr h
          · exact Or.inl (by rw [h, ← hq])
      · rw [dictSet, if_neg hq]
        simp only [List.map_cons, List.mem_cons, ih]
        tauto

theorem mapVal_applyChildren (children : List Int) (p : Int) :
    ∀ (m : List (Int × Int)) (x : Int),
      mapVal (children.foldl (fun m t => dictSet m t p) m) x =
        if x ∈ children then p else mapVal m x := by
  induction children with
  | nil => intro m x; simp
  | cons c cs ih =>
      intro m x
      rw [List.foldl_cons, ih]
      by_cases hx : x ∈ cs
      · rw [if_pos hx, if_pos (by simp [hx])]
      · rw [if_neg hx, mapVal_dictSet]
        by_cases hc : x = c
        · rw [if_pos hc, if_pos (by simp [hc])]
        · rw [if_neg hc, if_neg (by simp [hc, hx])]

theorem keys_applyChildren (children : List Int) (p : Int) :
    ∀ (m : List (Int × Int)) (x : Int),
      x ∈ (children.foldl (fun m t => dictSet m t p) m).map Prod.fst ↔
        x ∈ m.map Prod.fst ∨ x ∈ children := by
  induction children with
  | nil => intro m x; simp
  | cons c cs ih =>
      intro m x
      rw [List.foldl_cons, ih, keys_dictSet]
      simp only [List.mem_cons]
      tauto

theorem mapVal_applyRecord (m : List (Int × Int)) (r : MergeRec) (x : Int) :
    mapVal (applyRecord m r) x = if x ∈ r.children then r.parent else mapVal m x :=
  mapVal_applyChildren r.children r.parent m x

theorem keys_applyRecord (m : List (Int × Int)) (r : MergeRec) (x : Int) :
    x ∈ (applyRecord m r).map Prod.fst ↔ x ∈ m.map Prod.fst ∨ x ∈ r.children :=
  keys_applyChildren r.children r.parent m x

theorem mapVal_applyRecords_notchild :
    ∀ (L : List MergeRec) (m : List (Int × Int)) (x : Int),
      (∀ r ∈ L, x ∉ r.children) → mapVal (applyRecords L m) x = mapVal m x := by
  intro L
  induction L with
  | nil => intro m x _; rfl
  | cons r0 L ih =>
      intro m x hx
      rw [applyRecords, List.foldl_cons]
      have := ih (applyRecord m r0) x (fun r hr => hx r (by simp [hr]))
      rw [applyRecords] at this
      rw [this, mapVal_applyRecord, if_neg (hx r0 (by simp))]

theorem mapVal_applyRecords_child :
    ∀ (L : List MergeRec) (m : List (Int × Int)) (x : Int) (r : MergeRec),
      r ∈ L → x ∈ r.children →
      (∀ r2 ∈ L, x ∈ r2.children → r2.parent = r.parent) →
      mapVal (applyRecords L m) x = r.parent := by
  intro L
  induction L with
  | nil => intro m x r hr; exact absurd hr (List.not_mem_nil r)
  | cons r0 L ih =>
      intro m x r hr hx huniq
      rw [applyRecords, List.foldl_cons]
      by_cases hex : ∃ r2 ∈ L, x ∈ r2.children
      · obtain ⟨r2, hr2, hxr2⟩ := hex
        have heq : r2.parent = r.parent := huniq r2 (by simp [hr2]) hxr2
        have := ih (applyRecord m r0) x r2 hr2 hxr2
          (fun r3 h3 hx3 => (huniq r3 (by simp [h3]) hx3).trans heq.symm)
        rw [applyRecords] at this
        rw [this, heq]
      · push_neg at hex
        have hnot := mapVal_applyRecords_notchild L (applyRecord m r0) x hex
        rw [applyRecords] at hnot
        rw [hnot, mapVal_applyRecord]
        have hr0 : r = r0 := by
          rcases List.mem_cons.mp hr with h | h
          · exact h
          · exact absurd hx (hex r h)
        rw [if_pos (hr0 ▸ hx), hr0]

theorem keys_applyRecords :
    ∀ (L : List MergeRec) (m : List (Int × Int)) (x : Int),
      x ∈ (applyRecords L m).map Prod.fst ↔
        x ∈ m.map Prod.fst ∨ ∃ r ∈ L, x ∈ r.children := by
  intro L
  induction L with
  | nil => intro m x; simp [applyRecords]
  | cons r0 L ih =>
      intro m x
      rw [applyRecords, List.foldl_cons]
      have := ih (applyRecord m r0) x
      rw [applyRecords] at this
      rw [this, keys_applyRecord]
      simp only [List.mem_cons]
      constructor
      · rintro ((h | h) | ⟨r, hr, hxr⟩)
        · exact Or.inl h
        · exact Or.inr ⟨r0, Or.inl rfl, h⟩
        · exact Or.inr ⟨r, Or.inr hr, hxr⟩
      · rintro (h | ⟨r, hr | hr, hxr⟩)
        · exact Or.inl (Or.inl h)
        · exact Or.inl (Or.inr (hr ▸ hxr))
        · exact Or.inr ⟨r, hr, hxr⟩

theorem mapVal_selfPairs : ∀ (l : List Int) (x : Int),
    mapVal (l.map (fun t => (t, t))) x = x := by
  intro l
  induction l with
  | nil => intro x; rfl
  | cons a l ih =>
      intro x
      rw [List.map_cons, mapVal_cons]
      by_cases h : a = x
      · rw [if_pos h]; exact h
      · rw [if_neg h]; exact ih x

theorem mapVal_initMapping (dt : List Int) (x : Int) :
    mapVal (initMapping dt) x = x := mapVal_selfPairs (uniqueFirst dt) x

theorem keys_initMapping (dt : List Int) :
    (initMapping dt).map Prod.fst = uniqueFirst dt := by
  rw [initMapping, List.map_map]
  exact List.map_id _

theorem uniqueAux_mem : ∀ (l seen : List Int) (x : Int),
    x ∈ uniqueAux seen l ↔ x ∈ l ∧ x ∉ seen := by
  intro l
  induction l with
  | nil => intro seen x; simp [uniqueAux]
  | cons a l ih =>
      intro seen x
      rw [uniqueAux]
      by_cases h : seen.contains a = true
      · rw [if_pos h, ih]
        have ha : a ∈ seen := by simpa using h
        simp only [List.mem_cons]
        constructor
        · rintro ⟨hx, hs⟩; exact ⟨Or.inr hx, hs⟩
        · rintro ⟨hx | hx, hs⟩
          · exact absurd (hx ▸ ha) hs
          · exact ⟨hx, hs⟩
      · rw [if_neg h]
        have ha : a ∉ seen := by simpa using h
        simp only [List.mem_cons, ih, List.mem_cons]
        constructor
        · rintro (hx | ⟨hx, hs⟩)
          · exact ⟨Or.inl hx, hx ▸ ha⟩
          · exact ⟨Or.inr hx, fun hmem => hs (Or.inr hmem)⟩
        · rintro ⟨hx | hx, hs⟩
          · exact Or.inl hx
          · by_cases hxa : x = a
            · exact Or.inl hxa
            · exact Or.inr ⟨hx, fun hmem => by
                rcases hmem with hh | hh
                · exact hxa hh
                · exact hs hh⟩

theorem uniqueFirst_mem (l : List Int) (x : Int) : x ∈ uniqueFirst l ↔ x ∈ l := by
  rw [uniqueFirst, uniqueAux_mem]
  simp

theorem uniqueAux_nodup : ∀ (l seen : List Int), (uniqueAux seen l).Nodup := by
  intro l
  induction l with
  | nil => intro seen; simp [uniqueAux]
  | cons a l ih =>
      intro seen
      rw [uniqueAux]
      by_cases h : seen.contains a = true
      · rw [if_pos h]; exact ih seen
      · rw [if_neg h]
        refine List.Nodup.cons ?_ (ih (a :: seen))
        intro hmem
        have := (uniqueAux_mem l (a :: seen) a).mp hmem
        exact this.2 (by simp)

theorem uniqueFirst_nodup (l : List Int) : (uniqueFirst l).Nodup := uniqueAux_nodup l []

theorem keys_nodup_dictSet (m : List (Int × Int)) (k v : Int)
    (h : (m.map Prod.fst).Nodup) : ((dictSet m k v).map Prod.fst).Nodup := by
  induction m with
  | nil => simp [dictSet]
  | cons q rest ih =>
      obtain ⟨k0, v0⟩ := q
      rw [List.map_cons] at h
      obtain ⟨hhead, htail⟩ := List.nodup_cons.mp h
      by_cases hq : k0 = k
      · rw [dictSet, if_pos hq, List.map_cons]
        exact List.nodup_cons.mpr ⟨hhead, htail⟩
      · rw [dictSet, if_neg hq, List.map_cons]
        refine List.nodup_cons.mpr ⟨?_, ih htail⟩
        intro hmem
        rcases (keys_dictSet rest k v k0).mp hmem with hh | hh
        · exact hhead hh
        · exact hq hh

theorem keys_nodup_applyChildren (children : List Int) (p : Int) :
    ∀ (m : List (Int × Int)), (m.map Prod.fst).Nodup →
      ((children.foldl (fun m t => dictSet m t p) m).map Prod.fst).Nodup := by
  induction children with
  | nil => intro m h; exact h
  | cons c cs ih =>
      intro m h
      rw [List.foldl_cons]
      exact ih (dictSet m c p) (keys_nodup_dictSet m c p h)

theorem keys_nodup_applyRecords : ∀ (L : List MergeRec) (m : List (Int × Int)),
    (m.map Prod.fst).Nodup → ((applyRecords L m).map Prod.fst).Nodup := by
  intro L
  induction L with
  | nil => intro m h; exact h
  | cons r L ih =>
      intro m h
      rw [applyRecords, List.foldl_cons]
      have := ih (applyRecord m r) (keys_nodup_applyChildren r.children r.parent m h)
      rw [applyRecords] at this
      exact this

theorem assembled_keys_nodup (dt : List Int) (records : List MergeRec) (d : ℚ) :
    ((assembled dt records d).map Prod.fst).Nodup := by
  rw [assembled]
  refine keys_nodup_applyRecords _ _ ?_
  rw [keys_initMapping]
  exact uniqueFirst_nodup dt

theorem mapVal_of_mem_nodup : ∀ (m : List (Int × Int)) (p : Int × Int),
    (m.map Prod.fst).Nodup → p ∈ m → mapVal m p.1 = p.2 := by
  intro m
  induction m with
  | nil => intro p _ hp; exact absurd hp (List.not_mem_nil p)
  | cons q rest ih =>
      intro p hnd hp
      rw [List.map_cons] at hnd
      obtain ⟨hhead, htail⟩ := List.nodup_cons.mp hnd
      rcases List.mem_cons.mp hp with hpq | hpr
      · rw [hpq, mapVal_cons, if_pos rfl]
      · rw [mapVal_cons]
        have hne : q.1 ≠ p.1 := by
          intro heq
          exact hhead (heq ▸ List.mem_map.mpr ⟨p, hpr, rfl⟩)
        rw [if_neg hne]
        exact ih p htail hpr

/-! ### The sorted selection -/
theorem insertByParent_perm (r : MergeRec) :
    ∀ (l : List MergeRec), (insertByParent r l).Perm (r :: l) := by
  intro l
  induction l with
  | nil => rw [insertByParent]
  | cons s rest ih =>
      rw [insertByParent]
      by_cases h : r.parent ≤ s.parent
      · rw [if_pos h]
      · rw [if_neg h]
        exact (ih.cons s).trans (List.Perm.swap r s rest)

theorem sortByParent_perm : ∀ (l : List MergeRec), (sortByParent l).Perm l := by
  intro l
  induction l with
  | nil => rw [sortByParent]
  | cons r rest ih =>
      rw [sortByParent]
      exact (insertByParent_perm r (sortByParent rest)).trans (ih.cons r)

theorem mem_selectionOf (records : List MergeRec) (d : ℚ) (r : MergeRec) :
    r ∈ selectionOf records d ↔ r ∈ records ∧ r.distance ≤ d := by
  rw [selectionOf, (sortByParent_perm _).mem_iff, List.mem_filter]
  simp

/-! ### Termination of the resolution loop -/
theorem passAux_allFalse (K : List Int) :
    ∀ (l acc : List REntry),
      keysOf (acc.reverse ++ l) = K →
      (∀ e ∈ l, e.value = e.key ∨ K.contains e.value = false) →
      passAux acc l = acc.reverse ++ l.map (fun e => { e with flag := false }) := by
  intro l
  induction l with
  | nil =>
      intro acc _ _
      rw [passAux, List.map_nil, List.append_nil]
  | cons e rest ih =>
      intro acc hK hprop
      rw [passAux]
      have hcond : condCheck (acc.reverse ++ e :: rest) e = false := by
        rw [condCheck]
        rcases hprop e (by simp) with hv | hv
        · have hbne : (e.key != e.value) = false := by
            rw [bne_eq_false_iff_eq]; exact hv.symm
          rw [hbne, Bool.and_false]
        · rw [hK, hv, Bool.false_and]
      rw [if_neg (by rw [hcond]; exact Bool.false_ne_true)]
      have hK2 : keysOf (({ e with flag := false } :: acc).reverse ++ rest) = K := by
        rw [List.reverse_cons, List.append_assoc]
        rw [keysOf_append] at hK ⊢
        rw [← hK]
        rfl
      rw [ih ({ e with flag := false } :: acc) hK2 (fun x hx => hprop x (by simp [hx]))]
      rw [List.reverse_cons, List.append_assoc, List.map_cons]
      rfl

theorem resolveLoop_two (st : List REntry) (K : List Int)
    (hK : keysOf st = K)
    (hprop : ∀ e ∈ st, e.value = e.key ∨ K.contains e.value = false) :
    resolveLoop 2 st = some (st.map (fun e => (e.key, e.value))) := by
  have hpass : resolvePass st = st.map (fun e => { e with flag := false }) := by
    rw [resolvePass]
    have := passAux_allFalse K st [] (by simpa using hK) hprop
    simpa using this
  by_cases hany : anyFlag st = true
  · rw [resolveLoop, if_pos hany, hpass]
    have hany2 : anyFlag (st.map (fun e => ({ e with flag := false } : REntry))) = false := by
      rw [anyFlag, List.any_map]
      rw [List.any_eq_false]
      intro e _
      exact fun h => Bool.false_ne_true h
    rw [resolveLoop, if_neg (by rw [hany2]; exact Bool.false_ne_true)]
    rw [List.map_map]
    rfl
  · rw [resolveLoop, if_neg hany]

theorem keysOf_toEntries (m : List (Int × Int)) :
    keysOf (toEntries m) = m.map Prod.fst := by
  rw [toEntries, keysOf, List.map_map]
  rfl

theorem mem_toEntries (m : List (Int × Int)) (e : REntry) :
    e ∈ toEntries m ↔ ∃ p ∈ m, e = ⟨p.1, p.2, true⟩ := by
  rw [toEntries, List.mem_map]
  constructor
  · rintro ⟨p, hp, hpe⟩; exact ⟨p, hp, hpe.symm⟩
  · rintro ⟨p, hp, hpe⟩; exact ⟨p, hp, hpe.symm⟩

/-- Claim C3, amended: the repeated-pass resolution need not terminate for
every tree-structured input (see the counterexample), but it does terminate —
in a single pass — whenever the parent ids of the merge records are fresh:
they occur neither among the document topics nor in any record's child list.
This is exactly the shape of the data produced by the topic-model library,
whose `Topics` column lists leaf topics and whose parent ids are drawn from a
disjoint range. -/
theorem C3_amended (docTopics : List Int) (records : List MergeRec) (maxDist : ℚ)
    (huniq : ∀ r ∈ records, ∀ r2 ∈ records, ∀ x ∈ r.children,
      x ∈ r2.children → r2.parent = r.parent)
    (hfresh : ∀ r ∈ records, r.parent ∉ docTopics ∧
      ∀ r2 ∈ records, r.parent ∉ r2.children) :
    ∃ m, levelMapping docTopics records maxDist 2 = some m := by
  refine ⟨(toEntries (assembled docTopics records maxDist)).map (fun e => (e.key, e.value)), ?_⟩
  rw [levelMapping]
  apply resolveLoop_two _ (keysOf (toEntries (assembled docTopics records maxDist))) rfl
  intro e he
  obtain ⟨p, hp, hpe⟩ := (mem_toEntries _ e).mp he
  have hval : mapVal (assembled docTopics records maxDist) p.1 = p.2 :=
    mapVal_of_mem_nodup _ p (assembled_keys_nodup docTopics records maxDist) hp
  by_cases hex : ∃ r ∈ selectionOf records maxDist, p.1 ∈ r.children
  · obtain ⟨r, hr, hxr⟩ := hex
    have hrrec : r ∈ records := ((mem_selectionOf records maxDist r).mp hr).1
    have hassign : mapVal (assembled docTopics records maxDist) p.1 = r.parent := by
      rw [assembled]
      exact mapVal_applyRecords_child _ _ p.1 r hr hxr
        (fun r2 hr2 hx2 =>
          huniq r hrrec r2 ((mem_selectionOf records maxDist r2).mp hr2).1 p.1 hxr hx2)
    right
    rw [hpe]
    have hnotmem : r.parent ∉ keysOf (toEntries (assembled docTopics records maxDist)) := by
      rw [keysOf_toEntries, assembled]
      intro hmem
      rcases (keys_applyRecords _ _ r.parent).mp hmem with hinit | ⟨r2, hr2, hx2⟩
      · rw [keys_initMapping] at hinit
        exact (hfresh r hrrec).1 ((uniqueFirst_mem docTopics r.parent).mp hinit)
      · exact (hfresh r hrrec).2 r2 ((mem_selectionOf records maxDist r2).mp hr2).1 hx2
    have : (⟨p.1, p.2, true⟩ : REntry).value = r.parent := by
      show p.2 = r.parent
      rw [← hval, hassign]
    rw [this]
    rw [Bool.eq_false_iff]
    intro hcont
    exact hnotmem (by simpa using hcont)
  · left
    push_neg at hex
    rw [hpe]
    show p.2 = p.1
    rw [← hval, assembled, mapVal_applyRecords_notchild _ _ p.1 hex, mapVal_initMapping]

theorem resolveLoop_fixed_none (s : List REntry) (hfix : resolvePass s = s)
    (hany : anyFlag s = true) : ∀ n, resolveLoop n s = none := by
  intro n
  induction n with
  | zero => rfl
  | succ n ih => rw [resolveLoop, if_pos hany, hfix]; exact ih

theorem c3_state_eq : toEntries (assembled cexTopics exRecords (0.2 : ℚ)) =
    [⟨0, 10, true⟩, ⟨1, 10, true⟩, ⟨2, 2, true⟩, ⟨10, 10, true⟩, ⟨11, 11, true⟩] := by
  rw [assembled, exSelection02]
  decide

theorem c3_pass1 : resolvePass
    [⟨0, 10, true⟩, ⟨1, 10, true⟩, ⟨2, 2, true⟩, ⟨10, 10, true⟩, ⟨11, 11, true⟩] =
    c3Stuck := by decide

/-- Claim C3 (as stated): the fixed-point resolution terminates for every
tree-structured merge input and cutoff.  False: the example records are
tree-structured (each child has a unique parent, and `exRank` witnesses
acyclicity), yet with document topics `[0, 1, 2, 10, 11]` and cutoff 0.2
the keys 0 and 1 stably map to the distinct key 10, their `mappings` flags
are never set false, and the `while any(mappings)` loop never exits: the loop
is still running after any number of passes. -/
theorem C3_counterexample :
    (∀ r ∈ exRecords, ∀ r2 ∈ exRecords, ∀ x ∈ r.children,
      x ∈ r2.children → r2.parent = r.parent) ∧
    (∀ r ∈ exRecords, ∀ c ∈ r.children, exRank c < exRank r.parent) ∧
    ∀ fuel, levelMapping cexTopics exRecords (0.2 : ℚ) fuel = none := by
  refine ⟨by decide, by decide, ?_⟩
  intro fuel
  rw [levelMapping, c3_state_eq]
  cases fuel with
  | zero => rfl
  | succ n =>
      rw [resolveLoop, if_pos (by decide)]
      rw [show resolvePass
        [⟨0, 10, true⟩, ⟨1, 10, true⟩, ⟨2, 2, true⟩, ⟨10, 10, true⟩, ⟨11, 11, true⟩] =
        c3Stuck from c3_pass1]
      exact resolveLoop_fixed_none c3Stuck (by decide) (by decide) n

/-- Witness for `C3_amended`: with fresh parent ids the loop terminates. -/
theorem C3_amended_witness :
    ∃ m, levelMapping [0, 1, 2, 3] c3wRecords (0.35 : ℚ) 2 = some m :=
  C3_amended [0, 1, 2, 3] c3wRecords 0.35 (by decide) (by decide)

/-- Claim C2 (as stated): on the two-record example the procedure would yield
`{0:10, 1:10, 2:2, 10:10, 11:11}` at cutoff 0.2 and
`{0:11, 1:11, 2:11, 10:11, 11:11}` at cutoff 0.35.  False: the mapping is
keyed by `df.topic.unique()`, which holds the document topics 0, 1, 2 only;
10 enters as a key at cutoff 0.35 only because assigning the child 10 of the
second record appends it to the dict, and 11 is never a key.  The procedure
produces `{0:10, 1:10, 2:2}` and `{0:11, 1:11, 2:11, 10:11}`, neither of
which is dict-equal to the claimed mapping. -/
theorem C2_counterexample :
    levelMapping exTopics exRecords (0.2 : ℚ) 30 = some [(0, 10), (1, 10), (2, 2)] ∧
    pyDictEq [(0, 10), (1, 10), (2, 2)] claimed02 = false ∧
    levelMapping exTopics exRecords (0.35 : ℚ) 30 =
      some [(0, 11), (1, 11), (2, 11), (10, 11)] ∧
    pyDictEq [(0, 11), (1, 11), (2, 11), (10, 11)] claimed035 = false :=
  ⟨exMapping02, by decide, exMapping035, by decide⟩

/-- Claim C2, amended: with document topics `{0, 1, 2}`, the merge records
`[(children={0,1}, parent=10, distance=0.1), (children={10,2}, parent=11,
distance=0.3)]` produce the mapping `{0:10, 1:10, 2:2}` at cutoff 0.2 and
`{0:11, 1:11, 2:11, 10:11}` at cutoff 0.35. -/
theorem C2_amended :
    levelMapping exTopics exRecords (0.2 : ℚ) 30 = some [(0, 10), (1, 10), (2, 2)] ∧
    levelMapping exTopics exRecords (0.35 : ℚ) 30 =
      some [(0, 11), (1, 11), (2, 11), (10, 11)] :=
  ⟨exMapping02, exMapping035⟩

/-- Witness for `C4_idempotent` on the resolved example mapping at cutoff 0.2. -/
theorem C4_witness :
    mapVal [(0, 10), (1, 10), (2, 2)] (mapVal [(0, 10), (1, 10), (2, 2)] 2) =
      mapVal [(0, 10), (1, 10), (2, 2)] 2 :=
  C4_idempotent exTopics exRecords 0.2 30 [(0, 10), (1, 10), (2, 2)] exMapping02 2
    (by decide) (by decide)

theorem sampleSize_eq (n : Nat) : sampleSize n = n := by
  rw [sampleSize]
  by_cases h : n < 100
  · rw [if_pos h]
  · rw [if_neg h]

theorem mem_whereEq (tpd : List Int) (t : Int) (i : Nat) :
    i ∈ whereEq tpd t ↔ i < tpd.length ∧ tpd.getD i 0 = t := by
  rw [whereEq, List.mem_filter, List.mem_range]
  simp

theorem whereEq_nodup (tpd : List Int) (t : Int) : (whereEq tpd t).Nodup :=
  (List.nodup_range _).filter _

theorem list_toFinset_map {α β : Type} [DecidableEq α] [DecidableEq β]
    (l : List α) (f : α → β) :
    (l.map f).toFinset = l.toFinset.image f := by
  ext x
  simp

theorem flatten_groups_perm_range (tpd : List Int) :
    (((uniqueFirst tpd).map (whereEq tpd)).flatten).Perm (List.range tpd.length) := by
  apply List.perm_of_nodup_nodup_toFinset_eq
  · rw [List.nodup_flatten]
    constructor
    · intro l hl
      obtain ⟨t, _, hlt⟩ := List.mem_map.mp hl
      exact hlt ▸ whereEq_nodup tpd t
    · rw [List.pairwise_map]
      refine (uniqueFirst_nodup tpd).imp ?_
      intro t t2 hne
      intro i hi hi2
      rw [mem_whereEq] at hi hi2
      exact absurd (hi.2.symm.trans hi2.2) hne
  · exact List.nodup_range _
  · ext i
    simp only [List.mem_toFinset, List.mem_flatten, List.mem_map, List.mem_range]
    constructor
    · rintro ⟨l, ⟨t, _, hlt⟩, hil⟩
      exact ((mem_whereEq tpd t i).mp (hlt ▸ hil)).1
    · intro hi
      refine ⟨whereEq tpd (tpd.getD i 0), ⟨tpd.getD i 0, ?_, rfl⟩, ?_⟩
      · rw [uniqueFirst_mem]
        rw [List.getD_eq_getElem tpd 0 hi]
        exact List.getElem_mem hi
      · exact (mem_whereEq tpd _ i).mpr ⟨hi, rfl⟩

theorem flatten_map_perm (ts : List Int) (f g : Int → List Nat)
    (h : ∀ t ∈ ts, (f t).Perm (g t)) :
    ((ts.map f).flatten).Perm ((ts.map g).flatten) := by
  induction ts with
  | nil => rfl
  | cons t ts ih =>
      simp only [List.map_cons, List.flatten_cons]
      exact (h t (by simp)).append (ih (fun t2 h2 => h t2 (by simp [h2])))

/-- Claim C10: no cap is applied in the per-topic sampling — `size` equals
the full group size in both branches of the conditional — so the sampled
indices form a permutation of all document indices and every document index
occurs exactly once in the sampled output. -/
theorem C10_full_sample (tpd : List Int) (choice : Int → List Nat)
    (hc : ∀ t ∈ uniqueFirst tpd, (choice t).Nodup ∧
      (∀ i ∈ choice t, i ∈ whereEq tpd t) ∧
      (choice t).length = sampleSize (whereEq tpd t).length) :
    (sampledIndices tpd choice).Perm (List.range tpd.length) ∧
    ∀ i, i < tpd.length → (sampledIndices tpd choice).count i = 1 := by
  have hperm : (sampledIndices tpd choice).Perm (List.range tpd.length) := by
    rw [sampledIndices]
    refine (flatten_map_perm (uniqueFirst tpd) choice (whereEq tpd) ?_).trans
      (flatten_groups_perm_range tpd)
    intro t ht
    obtain ⟨hnd, hsub, hlen⟩ := hc t ht
    rw [sampleSize_eq] at hlen
    exact (hnd.subperm hsub).perm_of_length_le (le_of_eq hlen.symm)
  refine ⟨hperm, ?_⟩
  intro i hi
  rw [hperm.count_eq]
  exact List.count_eq_one_of_mem (List.nodup_range _) (List.mem_range.mpr hi)

/-- Witness for `C10_full_sample` with topics `[0, 0, 1]` and the identity
draw. -/
theorem C10_witness :
    (sampledIndices [0, 0, 1] (fun t => whereEq [0, 0, 1] t)).Perm (List.range 3) ∧
    (sampledIndices [0, 0, 1] (fun t => whereEq [0, 0, 1] t)).count 1 = 1 := by
  have h := C10_full_sample [0, 0, 1] (fun t => whereEq [0, 0, 1] t)
    (by decide)
  exact ⟨h.1, h.2 1 (by decide)⟩

theorem step_cases (S : List MergeRec) (x : Int) :
    (stepTopic S x = x ∧ ∀ r ∈ S, x ∉ r.children) ∨
    ∃ r ∈ S, x ∈ r.children ∧ stepTopic S x = r.parent := by
  cases hfind : S.find? (fun r => r.children.contains x) with
  | none =>
      left
      refine ⟨by rw [stepTopic, hfind], ?_⟩
      intro r hr hx
      have := List.find?_eq_none.mp hfind r hr
      exact this (by simpa using hx)
  | some r =>
      right
      refine ⟨r, List.mem_of_find?_eq_some hfind, ?_, by rw [stepTopic, hfind]⟩
      have := List.find?_some hfind
      simpa using this

theorem step_ne_imp (S : List MergeRec) (x : Int) (hne : stepTopic S x ≠ x) :
    ∃ r ∈ S, x ∈ r.children ∧ stepTopic S x = r.parent := by
  rcases step_cases S x with ⟨h, _⟩ | h
  · exact absurd h hne
  · exact h

theorem step_eq_parent (S : List MergeRec)
    (huniq : ∀ r ∈ S, ∀ r2 ∈ S, ∀ x ∈ r.children, x ∈ r2.children → r2.parent = r.parent)
    (r : MergeRec) (x : Int) (hr : r ∈ S) (hx : x ∈ r.children) :
    stepTopic S x = r.parent := by
  cases hfind : S.find? (fun r2 => r2.children.contains x) with
  | none => exact absurd (by simpa using hx) (List.find?_eq_none.mp hfind r hr)
  | some r2 =>
      rw [stepTopic, hfind]
      exact huniq r hr r2 (List.mem_of_find?_eq_some hfind) x hx
        (by simpa using List.find?_some hfind)

theorem rank_step (S : List MergeRec) (rank : Int → Nat)
    (hrank : ∀ r ∈ S, ∀ c ∈ r.children, rank c < rank r.parent)
    (x : Int) (hne : stepTopic S x ≠ x) : rank x < rank (stepTopic S x) := by
  obtain ⟨r, hr, hx, hstep⟩ := step_ne_imp S x hne
  rw [hstep]
  exact hrank r hr x hx

theorem fixed_iterate (S : List MergeRec) (x : Int) (h : stepTopic S x = x) :
    ∀ n, (stepTopic S)^[n] x = x := by
  intro n
  induction n with
  | zero => rfl
  | succ n ih => rw [Function.iterate_succ_apply, h]; exact ih

theorem rank_iterate_lt (S : List MergeRec) (rank : Int → Nat)
    (hrank : ∀ r ∈ S, ∀ c ∈ r.children, rank c < rank r.parent)
    (x : Int) (hne : stepTopic S x ≠ x) :
    ∀ n, rank x < rank ((stepTopic S)^[n + 1] x) := by
  intro n
  induction n with
  | zero =>
      rw [Function.iterate_one]
      exact rank_step S rank hrank x hne
  | succ n ih =>
      rw [Function.iterate_succ_apply']
      by_cases h : stepTopic S ((stepTopic S)^[n + 1] x) = (stepTopic S)^[n + 1] x
      · rw [h]; exact ih
      · exact ih.trans (rank_step S rank hrank _ h)

theorem no_cycle (S : List MergeRec) (rank : Int → Nat)
    (hrank : ∀ r ∈ S, ∀ c ∈ r.children, rank c < rank r.parent)
    (x : Int) (j : Nat) (hj : 1 ≤ j) (h : (stepTopic S)^[j] x = x) :
    stepTopic S x = x := by
  by_contra hne
  obtain ⟨j', rfl⟩ : ∃ j', j = j' + 1 := ⟨j - 1, by omega⟩
  have := rank_iterate_lt S rank hrank x hne j'
  rw [h] at this
  exact lt_irrefl _ this

theorem filter_length_mono {α : Type} (S : List α) (p q : α → Bool)
    (hmono : ∀ a ∈ S, p a = true → q a = true) :
    (S.filter p).length ≤ (S.filter q).length := by
  induction S with
  | nil => exact Nat.le_refl 0
  | cons a S ih =>
      have ih2 := ih (fun a2 h2 => hmono a2 (by simp [h2]))
      rw [List.filter_cons, List.filter_cons]
      by_cases hp : p a = true
      · rw [if_pos hp, if_pos (hmono a (by simp) hp)]
        simpa using ih2
      · rw [if_neg hp]
        by_cases hq : q a = true
        · rw [if_pos hq]
          exact ih2.trans (by simp)
        · rw [if_neg hq]
          exact ih2

theorem filter_length_lt {α : Type} (S : List α) (p q : α → Bool)
    (hmono : ∀ a ∈ S, p a = true → q a = true)
    (r : α) (hr : r ∈ S) (hq : q r = true) (hp : p r = false) :
    (S.filter p).length < (S.filter q).length := by
  induction S with
  | nil => exact absurd hr (List.not_mem_nil r)
  | cons a S ih =>
      rw [List.filter_cons, List.filter_cons]
      rcases List.mem_cons.mp hr with hra | hrS
      · rw [← hra, hp, hq]
        simp only [Bool.false_eq_true, if_false, if_true, List.length_cons]
        exact Nat.lt_succ_of_le (filter_length_mono S p q
          (fun a2 h2 => hmono a2 (by simp [h2])))
      · have ih2 := ih (fun a2 h2 => hmono a2 (by simp [h2])) hrS
        by_cases hpa : p a = true
        · rw [if_pos hpa, if_pos (hmono a (by simp) hpa)]
          simpa using ih2
        · rw [if_neg hpa]
          by_cases hqa : q a = true
          · rw [if_pos hqa]
            exact ih2.trans (by simp)
          · rw [if_neg hqa]
            exact ih2

theorem phi_step_lt (S : List MergeRec) (rank : Int → Nat)
    (hrank : ∀ r ∈ S, ∀ c ∈ r.children, rank c < rank r.parent)
    (x : Int) (hne : stepTopic S x ≠ x) :
    phiM S rank (stepTopic S x) < phiM S rank x := by
  obtain ⟨r, hr, hx, hstep⟩ := step_ne_imp S x hne
  have hlt : rank x < rank r.parent := hrank r hr x hx
  apply filter_length_lt S _ _ ?_ r hr
  · rw [decide_eq_true_eq]; exact hlt
  · rw [hstep]
    rw [decide_eq_false_iff_not]
    exact lt_irrefl _
  · intro a _ ha
    rw [decide_eq_true_eq] at ha ⊢
    rw [hstep] at ha
    exact hlt.trans ha

theorem phi_stab (S : List MergeRec) (rank : Int → Nat)
    (hrank : ∀ r ∈ S, ∀ c ∈ r.children, rank c < rank r.parent) :
    ∀ (k : Nat) (x : Int), phiM S rank x ≤ k →
      stepTopic S ((stepTopic S)^[k] x) = (stepTopic S)^[k] x := by
  intro k
  induction k with
  | zero =>
      intro x hphi
      rw [Function.iterate_zero_apply]
      by_contra hne
      obtain ⟨r, hr, hx, _⟩ := step_ne_imp S x hne
      have hmem : r ∈ S.filter (fun r => decide (rank x < rank r.parent)) :=
        List.mem_filter.mpr ⟨hr, by rw [decide_eq_true_eq]; exact hrank r hr x hx⟩
      have : 0 < phiM S rank x := by
        rw [phiM]
        refine List.length_pos.mpr ?_
        intro hempty
        rw [hempty] at hmem
        exact absurd hmem (List.not_mem_nil r)
      omega
  | succ k ih =>
      intro x hphi
      by_cases h : stepTopic S x = x
      · rw [fixed_iterate S x h]
        exact h
      · rw [Function.iterate_succ_apply]
        exact ih (stepTopic S x) (by
          have := phi_step_lt S rank hrank x h
          omega)

theorem phi_le_length (S : List MergeRec) (rank : Int → Nat) (x : Int) :
    phiM S rank x ≤ S.length := List.length_filter_le _ S

theorem chase_fixed (S : List MergeRec) (rank : Int → Nat)
    (hrank : ∀ r ∈ S, ∀ c ∈ r.children, rank c < rank r.parent) (x : Int) :
    stepTopic S (chaseTopic S x) = chaseTopic S x :=
  phi_stab S rank hrank S.length x (phi_le_length S rank x)

theorem chase_eq_of_fixed (S : List MergeRec) (rank : Int → Nat)
    (hrank : ∀ r ∈ S, ∀ c ∈ r.children, rank c < rank r.parent)
    (x v : Int) (j : Nat) (hv : stepTopic S v = v) (h : v = (stepTopic S)^[j] x) :
    chaseTopic S x = v := by
  rcases le_or_lt j S.length with hle | hlt
  · rw [chaseTopic, show S.length = (S.length - j) + j by omega,
      Function.iterate_add_apply, ← h]
    exact fixed_iterate S v hv _
  · rw [show j = (j - S.length) + S.length by omega, Function.iterate_add_apply] at h
    have hfix := chase_fixed S rank hrank x
    rw [chaseTopic] at hfix
    rw [fixed_iterate S _ hfix (j - S.length)] at h
    rw [chaseTopic, h]

theorem chase_step (S : List MergeRec) (rank : Int → Nat)
    (hrank : ∀ r ∈ S, ∀ c ∈ r.children, rank c < rank r.parent) (x : Int) :
    chaseTopic S (stepTopic S x) = chaseTopic S x := by
  rw [chaseTopic, ← Function.iterate_succ_apply, Function.iterate_succ_apply']
  exact congrArg (stepTopic S) rfl |>.trans (by
    rw [← chaseTopic]
    exact chase_fixed S rank hrank x)

theorem selection_huniq (records : List MergeRec) (d : ℚ)
    (huniq : ∀ r ∈ records, ∀ r2 ∈ records, ∀ x ∈ r.children,
      x ∈ r2.children → r2.parent = r.parent) :
    ∀ r ∈ selectionOf records d, ∀ r2 ∈ selectionOf records d, ∀ x ∈ r.children,
      x ∈ r2.children → r2.parent = r.parent := by
  intro r hr r2 hr2 x hx hx2
  exact huniq r ((mem_selectionOf records d r).mp hr).1
    r2 ((mem_selectionOf records d r2).mp hr2).1 x hx hx2

theorem selection_hrank (records : List MergeRec) (d : ℚ) (rank : Int → Nat)
    (hrank : ∀ r ∈ records, ∀ c ∈ r.children, rank c < rank r.parent) :
    ∀ r ∈ selectionOf records d, ∀ c ∈ r.children, rank c < rank r.parent := by
  intro r hr
  exact hrank r ((mem_selectionOf records d r).mp hr).1

theorem step_agree (records : List MergeRec) (d1 d2 : ℚ)
    (huniq : ∀ r ∈ records, ∀ r2 ∈ records, ∀ x ∈ r.children,
      x ∈ r2.children → r2.parent = r.parent)
    (hd : d1 ≤ d2) (x : Int)
    (hne : stepTopic (selectionOf records d1) x ≠ x) :
    stepTopic (selectionOf records d2) x = stepTopic (selectionOf records d1) x := by
  obtain ⟨r, hr, hx, hstep⟩ := step_ne_imp (selectionOf records d1) x hne
  obtain ⟨hrrec, hrd⟩ := (mem_selectionOf records d1 r).mp hr
  have hr2 : r ∈ selectionOf records d2 :=
    (mem_selectionOf records d2 r).mpr ⟨hrrec, hrd.trans hd⟩
  rw [hstep]
  exact step_eq_parent (selectionOf records d2) (selection_huniq records d2 huniq) r x hr2 hx

theorem chase_comp (records : List MergeRec) (d1 d2 : ℚ) (rank : Int → Nat)
    (huniq : ∀ r ∈ records, ∀ r2 ∈ records, ∀ x ∈ r.children,
      x ∈ r2.children → r2.parent = r.parent)
    (hrank : ∀ r ∈ records, ∀ c ∈ r.children, rank c < rank r.parent)
    (hd : d1 ≤ d2) (x : Int) :
    chaseTopic (selectionOf records d2) (chaseTopic (selectionOf records d1) x) =
      chaseTopic (selectionOf records d2) x := by
  have hrank2 := selection_hrank records d2 rank hrank
  have inner : ∀ (j : Nat) (y : Int),
      chaseTopic (selectionOf records d2) ((stepTopic (selectionOf records d1))^[j] y) =
        chaseTopic (selectionOf records d2) y := by
    intro j
    induction j with
    | zero => intro y; rfl
    | succ j ih =>
        intro y
        rw [Function.iterate_succ_apply, ih]
        by_cases h : stepTopic (selectionOf records d1) y = y
        · rw [h]
        · rw [← step_agree records d1 d2 huniq hd y h]
          exact chase_step (selectionOf records d2) rank hrank2 y
  rw [chaseTopic]
  exact inner _ x

theorem mapVal_assembled_step (docTopics : List Int) (records : List MergeRec)
    (d : ℚ)
    (huniq : ∀ r ∈ records, ∀ r2 ∈ records, ∀ x ∈ r.children,
      x ∈ r2.children → r2.parent = r.parent)
    (x : Int) :
    mapVal (assembled docTopics records d) x = stepTopic (selectionOf records d) x := by
  by_cases hex : ∃ r ∈ selectionOf records d, x ∈ r.children
  · obtain ⟨r, hr, hx⟩ := hex
    rw [assembled, mapVal_applyRecords_child _ _ x r hr hx
      (fun r2 hr2 hx2 => selection_huniq records d huniq r hr r2 hr2 x hx hx2)]
    exact (step_eq_parent _ (selection_huniq records d huniq) r x hr hx).symm
  · push_neg at hex
    rw [assembled, mapVal_applyRecords_notchild _ _ x hex, mapVal_initMapping]
    cases hfind : (selectionOf records d).find? (fun r => r.children.contains x) with
    | none => rw [stepTopic, hfind]
    | some r =>
        exact absurd (by simpa using List.find?_some hfind)
          (hex r (List.mem_of_find?_eq_some hfind))

/-- Whenever the resolution loop of `get_clustered_topics` terminates, the
mapping it returns is the chase of the selected child→parent links: every
entry's value is the first id on the parent-chain from its key that is not a
child of a selected record (under the tree-structure hypotheses). -/
theorem levelMapping_chase (docTopics : List Int) (records : List MergeRec)
    (rank : Int → Nat) (maxDist : ℚ) (fuel : Nat) (m : List (Int × Int))
    (huniq : ∀ r ∈ records, ∀ r2 ∈ records, ∀ x ∈ r.children,
      x ∈ r2.children → r2.parent = r.parent)
    (hrank : ∀ r ∈ records, ∀ c ∈ r.children, rank c < rank r.parent)
    (hrun : levelMapping docTopics records maxDist fuel = some m) :
    m.map Prod.fst = keysOf (toEntries (assembled docTopics records maxDist)) ∧
    ∀ p ∈ m, p.2 = chaseTopic (selectionOf records maxDist) p.1 := by
  have hrankS := selection_hrank records maxDist rank hrank
  have hmaster := resolveLoop_master
    (fun k v => ∃ j, 1 ≤ j ∧ v = (stepTopic (selectionOf records maxDist))^[j] k)
    (fun k v w ⟨j1, hj1, hv⟩ ⟨j2, hj2, hw⟩ =>
      ⟨j2 + j1, by omega, by rw [Function.iterate_add_apply, ← hv, ← hw]⟩)
    (keysOf (toEntries (assembled docTopics records maxDist))) fuel
    (toEntries (assembled docTopics records maxDist)) m rfl
    (fun e he => by
      obtain ⟨p, hp, hpe⟩ := (mem_toEntries _ e).mp he
      refine ⟨1, Nat.le_refl 1, ?_⟩
      rw [hpe]
      show p.2 = (stepTopic (selectionOf records maxDist))^[1] p.1
      rw [Function.iterate_one,
        ← mapVal_assembled_step docTopics records maxDist huniq p.1]
      exact (mapVal_of_mem_nodup _ p (assembled_keys_nodup docTopics records maxDist) hp).symm)
    (fun e he hef => by
      obtain ⟨p, _, hpe⟩ := (mem_toEntries _ e).mp he
      rw [hpe] at hef
      simp at hef)
    hrun
  refine ⟨hmaster.1, ?_⟩
  intro p hp
  obtain ⟨⟨j, hj, hval⟩, hout⟩ := hmaster.2 p hp
  rcases hout with hself | hout
  · have hfix : stepTopic (selectionOf records maxDist) p.1 = p.1 :=
      no_cycle _ rank hrankS p.1 j hj (by rw [← hval, hself])
    rw [hself, chaseTopic, fixed_iterate _ p.1 hfix]
  · have hnotchild : ∀ r ∈ selectionOf records maxDist, p.2 ∉ r.children := by
      intro r hr hmem
      have : p.2 ∈ keysOf (toEntries (assembled docTopics records maxDist)) := by
        rw [keysOf_toEntries, assembled]
        exact (keys_applyRecords _ _ p.2).mpr (Or.inr ⟨r, hr, hmem⟩)
      rw [Bool.eq_false_iff] at hout
      exact hout (by simpa using this)
    have hfix : stepTopic (selectionOf records maxDist) p.2 = p.2 := by
      cases hfind : (selectionOf records maxDist).find? (fun r => r.children.contains p.2) with
      | none => rw [stepTopic, hfind]
      | some r =>
          exact absurd (by simpa using List.find?_some hfind)
            (hnotchild r (List.mem_of_find?_eq_some hfind))
    exact (chase_eq_of_fixed _ rank hrankS p.1 p.2 j hfix hval).symm

theorem mapVal_levelMapping_chase (docTopics : List Int) (records : List MergeRec)
    (rank : Int → Nat) (maxDist : ℚ) (fuel : Nat) (m : List (Int × Int))
    (huniq : ∀ r ∈ records, ∀ r2 ∈ records, ∀ x ∈ r.children,
      x ∈ r2.children → r2.parent = r.parent)
    (hrank : ∀ r ∈ records, ∀ c ∈ r.children, rank c < rank r.parent)
    (hrun : levelMapping docTopics records maxDist fuel = some m)
    (t : Int) (ht : t ∈ docTopics) :
    mapVal m t = chaseTopic (selectionOf records maxDist) t := by
  obtain ⟨hkeys, hchase⟩ :=
    levelMapping_chase docTopics records rank maxDist fuel m huniq hrank hrun
  have htk : t ∈ m.map Prod.fst := by
    rw [hkeys, keysOf_toEntries, assembled]
    refine (keys_applyRecords _ _ t).mpr (Or.inl ?_)
    rw [keys_initMapping]
    exact (uniqueFirst_mem docTopics t).mpr ht
  obtain ⟨p, hp, hpt, hpval⟩ := mapVal_spec m t (by simpa using htk)
  rw [hpval, hchase p hp, hpt]

theorem dedup_length_map_le {α : Type} [DecidableEq α] (l : List α) (f : α → α) :
    ((l.map f).dedup).length ≤ l.dedup.length := by
  rw [← List.card_toFinset, ← List.card_toFinset, list_toFinset_map]
  exact Finset.card_image_le

/-- Claim C7, amended: over the documents, coarsening is monotone.  For a
tree-structured merge input (each child determines its parent; ranks increase
toward parents), if `d1 ≤ d2` and the resolution loop terminates at both
cutoffs, the number of distinct per-document level assignments at cutoff `d2`
is at most that at cutoff `d1`.  (Counted over the mapping's whole key set
instead, the claim is false: a coarser cutoff can add child keys whose
representatives are new — see the counterexample.) -/
theorem C7_amended (docTopics : List Int) (records : List MergeRec)
    (rank : Int → Nat) (d1 d2 : ℚ) (fuel1 fuel2 : Nat) (m1 m2 : List (Int × Int))
    (huniq : ∀ r ∈ records, ∀ r2 ∈ records, ∀ x ∈ r.children,
      x ∈ r2.children → r2.parent = r.parent)
    (hrank : ∀ r ∈ records, ∀ c ∈ r.children, rank c < rank r.parent)
    (hd : d1 ≤ d2)
    (h1 : levelMapping docTopics records d1 fuel1 = some m1)
    (h2 : levelMapping docTopics records d2 fuel2 = some m2) :
    levelCount m2 docTopics ≤ levelCount m1 docTopics := by
  have hm1 : docTopics.map (fun t => mapVal m1 t) =
      docTopics.map (fun t => chaseTopic (selectionOf records d1) t) :=
    List.map_congr_left (fun t ht =>
      mapVal_levelMapping_chase docTopics records rank d1 fuel1 m1 huniq hrank h1 t ht)
  have hm2 : docTopics.map (fun t => mapVal m2 t) =
      docTopics.map (fun t => chaseTopic (selectionOf records d2) t) :=
    List.map_congr_left (fun t ht =>
      mapVal_levelMapping_chase docTopics records rank d2 fuel2 m2 huniq hrank h2 t ht)
  rw [levelCount, levelCount, hm1, hm2]
  have hcomp : (docTopics.map (fun t => chaseTopic (selectionOf records d1) t)).map
      (fun t => chaseTopic (selectionOf records d2) t) =
      docTopics.map (fun t => chaseTopic (selectionOf records d2) t) := by
    rw [List.map_map]
    exact List.map_congr_left (fun t _ =>
      chase_comp records d1 d2 rank huniq hrank hd t)
  rw [← hcomp]
  exact dedup_length_map_le _ _

/-- Witness for `C7_amended` on the worked example: 1 distinct representative
at cutoff 0.35 against 2 at cutoff 0.2. -/
theorem C7_witness :
    levelCount [(0, 11), (1, 11), (2, 11), (10, 11)] exTopics ≤
      levelCount [(0, 10), (1, 10), (2, 2)] exTopics :=
  C7_amended exTopics exRecords exRank 0.2 0.35 30 30
    [(0, 10), (1, 10), (2, 2)] [(0, 11), (1, 11), (2, 11), (10, 11)]
    (by decide) (by decide) (by norm_num) exMapping02 exMapping035

theorem c7Selection005 : selectionOf c7Records (0.05 : ℚ) = [] := by
  rw [selectionOf, c7Records, List.filter_cons, List.filter_nil]
  rw [if_neg (by rw [decide_eq_true_eq]; norm_num)]
  rfl

theorem c7Selection01 : selectionOf c7Records (0.1 : ℚ) = [⟨[1, 2], 10, 0.1⟩] := by
  rw [selectionOf, c7Records, List.filter_cons, List.filter_nil]
  rw [if_pos (by rw [decide_eq_true_eq])]
  rfl

theorem c7Mapping005 : levelMapping [0] c7Records (0.05 : ℚ) 5 = some [(0, 0)] := by
  rw [levelMapping, assembled, c7Selection005]
  decide

theorem c7Mapping01 :
    levelMapping [0] c7Records (0.1 : ℚ) 5 = some [(0, 0), (1, 10), (2, 10)] := by
  rw [levelMapping, assembled, c7Selection01]
  decide

/-- Claim C7 (as stated): for every tree-structured merge input and document
topic set, a larger cutoff never increases the number of distinct
representative ids in the resolved mapping.  False: with document topic set
`{0}` and the single tree-structured record `(children={1,2}, parent=10,
distance=0.1)`, cutoff 0.05 yields the mapping `{0:0}` with 1 distinct
representative, while the larger cutoff 0.1 yields `{0:0, 1:10, 2:10}` with
2 distinct representatives (the assignment phase appends the non-document
children as new keys). -/
theorem C7_counterexample :
    (∀ r ∈ c7Records, ∀ r2 ∈ c7Records, ∀ x ∈ r.children,
      x ∈ r2.children → r2.parent = r.parent) ∧
    (∀ r ∈ c7Records, ∀ c ∈ r.children, c7Rank c < c7Rank r.parent) ∧
    (0.05 : ℚ) ≤ (0.1 : ℚ) ∧
    levelMapping [0] c7Records (0.05 : ℚ) 5 = some [(0, 0)] ∧
    levelMapping [0] c7Records (0.1 : ℚ) 5 = some [(0, 0), (1, 10), (2, 10)] ∧
    ¬ (repCount [(0, 0), (1, 10), (2, 10)] ≤ repCount [(0, 0)]) :=
  ⟨by decide, by decide, by norm_num, c7Mapping005, c7Mapping01, by decide⟩
